import Mathlib

/-!
Verification of the RNTupleImporter transcoding core (ROOT, `tree/ntupleutil/v7`).

The repository snapshot under scrutiny ships the importer's test suite
(`tree/ntupleutil/v7/test/ntuple_importer.cxx`) but not `RNTupleImporter.cxx`
itself, so the importer (Type Mapper, Schema Builder, Entry Transcoder and
Import Driver) is modelled from the specification, with the observable
behaviour pinned down by the shipped tests wherever the two speak to the same
point.  The test suite is authoritative where it is explicit: in
`TEST(RNTupleImporter, FixedSizeArray)` the branch `a[1]/I` is read back with
`GetView<std::int32_t>("a")`, i.e. as a plain scalar field, so a fixed-size
array of static length 1 maps to a scalar field, not to an array field of
length 1.
-/

/-- Primitive kinds of the closed target type system: boolean,
signed/unsigned integers of width 8/16/32/64, float32 and float64.
Float values are carried as their raw bit patterns, which is faithful because
the transcoder copies fixed-width values verbatim. -/
inductive PrimKind where
  | pBool
  | pI8
  | pU8
  | pI16
  | pU16
  | pI32
  | pU32
  | pI64
  | pU64
  | pF32
  | pF64
  deriving DecidableEq, Repr

/-- Bit width of each primitive kind. -/
def PrimKind.width : PrimKind → Nat
  | .pBool => 1
  | .pI8 => 8
  | .pU8 => 8
  | .pI16 => 16
  | .pU16 => 16
  | .pI32 => 32
  | .pU32 => 32
  | .pI64 => 64
  | .pU64 => 64
  | .pF32 => 32
  | .pF64 => 64

/-- Whether a primitive kind is a signed integer kind. -/
def PrimKind.isSigned : PrimKind → Bool
  | .pI8 => true
  | .pI16 => true
  | .pI32 => true
  | .pI64 => true
  | _ => false

/-- Shape of a legacy source branch, as exposed by its runtime type
descriptor: a scalar of a primitive kind; a null-terminated character buffer
with no explicit array length (recorded with its underlying buffer capacity);
a character buffer declared with an explicit array length; a fixed-size array
of a scalar kind with its static length; a leaf list of named primitive
sub-fields; or anything outside the closed mapping table. -/
inductive BranchShape where
  | scalar (k : PrimKind)
  | cstring (capacity : Nat)
  | charArray (n : Nat)
  | fixedArray (k : PrimKind) (n : Nat)
  | leafList (subs : List (String × PrimKind))
  | unsupported (descriptor : String)
  deriving DecidableEq, Repr

/-- A named, independently typed column of the legacy row-oriented
container. -/
structure Branch where
  name : String
  shape : BranchShape
  deriving DecidableEq, Repr

/-- The decoded per-row value of one branch, as read at the branch's stable
read address: a primitive bit pattern, the raw bytes of a character buffer
(for null-terminated text branches), the elements of a fixed-size array in
index order, or the sub-values of a leaf list in declared order. -/
inductive BranchVal where
  | prim (bits : Nat)
  | bytes (buf : List Nat)
  | arr (elems : List Nat)
  | recVal (subVals : List Nat)
  deriving DecidableEq, Repr

/-- The legacy source tree: an ordered sequence of branches and the row-major
data, one list of per-branch values per row. -/
structure SourceTree where
  branches : List Branch
  rows : List (List BranchVal)
  deriving DecidableEq, Repr

/-- Kind of one field of the target schema: a primitive, a variable-length
string (recorded together with the source buffer capacity that bounds the
terminator scan), a fixed-size array of a primitive kind, or an anonymous
record of named primitive sub-fields. -/
inductive FieldKind where
  | prim (k : PrimKind)
  | str (capacity : Nat)
  | fixedArr (k : PrimKind) (n : Nat)
  | record (subs : List (String × PrimKind))
  deriving DecidableEq, Repr

/-- A named field of the target schema. -/
structure RField where
  name : String
  kind : FieldKind
  deriving DecidableEq, Repr

/-- A value of one target field in one target row. -/
inductive FieldVal where
  | prim (bits : Nat)
  | str (chars : List Nat)
  | arr (elems : List Nat)
  | recVal (subVals : List Nat)
  deriving DecidableEq, Repr

/-- The destination columnar store: a fixed schema, the appended rows, and
whether the store has been committed. -/
structure TargetStore where
  schema : List RField
  rows : List (List FieldVal)
  committed : Bool
  deriving DecidableEq, Repr

/-- An object stored under a name inside the destination artifact: either a
legacy source tree or a target store. -/
inductive DirObject where
  | tree (t : SourceTree)
  | store (s : TargetStore)
  deriving DecidableEq, Repr

/-- The destination artifact (a ROOT file directory): an ordered sequence of
named objects. -/
abbrev Artifact := List (String × DirObject)

deriving instance DecidableEq for Except

/-- Structured failures surfaced by the import driver. -/
inductive ImportError where
  | targetAlreadyExists (name : String)
  | unsupportedBranchShape (branchName : String)
  | sourceTreeNotFound (treeName : String)
  | invariantViolation
  deriving DecidableEq, Repr

/-- Modelled from the spec: the Type Mapper of `RNTupleImporter.cxx` (absent
from the snapshot), the pure function from a branch descriptor to a target
field specification or a rejection, per the fixed mapping table of spec §4.1.
The static-length-1 fixed-array case follows the shipped test
`TEST(RNTupleImporter, FixedSizeArray)`, which reads the `a[1]/I` branch back
as a plain `std::int32_t` scalar field. -/
def mapBranch (b : Branch) : Except ImportError FieldKind :=
  match b.shape with
  | .scalar k => .ok (.prim k)
  | .cstring capacity => .ok (.str capacity)
  | .charArray n =>
      if n = 0 then .error (.unsupportedBranchShape b.name) else .ok (.fixedArr .pI8 n)
  | .fixedArray k n =>
      if n = 0 then .error (.unsupportedBranchShape b.name)
      else if 2 ≤ n then .ok (.fixedArr k n)
      else .ok (.prim k)
  | .leafList subs => .ok (.record subs)
  | .unsupported _ => .error (.unsupportedBranchShape b.name)

/-- Modelled from the spec: the Schema Builder of `RNTupleImporter.cxx`
(absent from the snapshot), which walks the branches in declaration order,
maps each one, and aborts the whole import on the first unsupported branch
(spec §4.2). -/
def buildSchema : List Branch → Except ImportError (List RField)
  | [] => .ok []
  | b :: bs => do
      let k ← mapBranch b
      let rest ← buildSchema bs
      pure (⟨b.name, k⟩ :: rest)

/-- Modelled from the spec: the bounded terminator scan of the Entry
Transcoder (spec §4.3) — scan the source buffer from offset 0 up to the
branch's recorded capacity for a terminator byte; the value is the bytes
strictly before the terminator, or the full capacity if none is found. -/
def extractCString (capacity : Nat) (buf : List Nat) : List Nat :=
  List.takeWhile (fun byte => byte ≠ 0) (buf.take capacity)

/-- Modelled from the spec: the per-branch value copy of the Entry Transcoder
(spec §4.3) — verbatim copy for primitives, bounded terminator scan for
null-terminated text, element-by-element copy for fixed arrays (a
static-length-1 array collapsing to its single scalar element, per the
shipped `FixedSizeArray` test), independent sub-field copy for leaf lists.
Any shape/value mismatch is a fatal invariant violation. -/
def transcodeVal : BranchShape → BranchVal → Option FieldVal
  | .scalar _, .prim bits => some (.prim bits)
  | .cstring capacity, .bytes buf => some (.str (extractCString capacity buf))
  | .charArray n, .arr elems =>
      if elems.length = n then some (.arr elems) else none
  | .fixedArray _ n, .arr elems =>
      if elems.length = n then
        some (if 2 ≤ n then .arr elems else .prim (elems.headD 0))
      else none
  | .leafList subs, .recVal subVals =>
      if subVals.length = subs.length then some (.recVal subVals) else none
  | _, _ => none

/-- Modelled from the spec: one Entry Transcoder invocation (spec §4.3) —
produce one target row from the current decoded value of every branch, in
field order. -/
def transcodeRow : List Branch → List BranchVal → Option (List FieldVal)
  | [], [] => some []
  | b :: bs, v :: vs => do
      let fv ← transcodeVal b.shape v
      let rest ← transcodeRow bs vs
      pure (fv :: rest)
  | [], _ :: _ => none
  | _ :: _, [] => none

/-- Does the artifact already contain any object under the given name? -/
def containsName (a : Artifact) (name : String) : Bool :=
  a.any (fun entry => entry.fst = name)

/-- Create an empty, uncommitted store from a schema under a name inside the
artifact. -/
def createStore (a : Artifact) (name : String) (schema : List RField) : Artifact :=
  a ++ [(name, .store ⟨schema, [], false⟩)]

/-- Append one row to the store held under the given name. -/
def appendRow (a : Artifact) (name : String) (row : List FieldVal) : Artifact :=
  a.map (fun entry =>
    match entry with
    | (n, .store s) =>
        if n = name then (n, .store ⟨s.schema, s.rows ++ [row], s.committed⟩) else entry
    | _ => entry)

/-- Mark the store held under the given name as committed. -/
def commitStore (a : Artifact) (name : String) : Artifact :=
  a.map (fun entry =>
    match entry with
    | (n, .store s) =>
        if n = name then (n, .store ⟨s.schema, s.rows, true⟩) else entry
    | _ => entry)

/-- Remove every object held under the given name (releasing a half-written
store on a failure exit path, spec §5). -/
def removeStore (a : Artifact) (name : String) : Artifact :=
  a.filter (fun entry => entry.fst ≠ name)

/-- Modelled from the spec: the row loop of the Import Driver (spec §4.4) —
transcode every source row in order, appending it to the named store; a
transcoding failure is fatal. -/
def fillLoop (branches : List Branch) (name : String) :
    List (List BranchVal) → Artifact → Artifact × Option ImportError
  | [], a => (a, none)
  | r :: rs, a =>
      match transcodeRow branches r with
      | none => (a, some .invariantViolation)
      | some row => fillLoop branches name rs (appendRow a name row)

/-- The importer handle produced by `RNTupleImporter::Create`: the source
tree, the name it was found under (the default target name), the optionally
configured target name, and the quiet flag (cosmetic, spec §4.4). -/
structure RNTupleImporter where
  srcTreeName : String
  tree : SourceTree
  ntupleName : Option String
  isQuiet : Bool
  deriving DecidableEq, Repr

/-- Mirror of `RNTupleImporter::SetNTupleName`. -/
def RNTupleImporter.setNTupleName (imp : RNTupleImporter) (n : String) : RNTupleImporter :=
  { imp with ntupleName := some n }

/-- Mirror of `RNTupleImporter::SetIsQuiet`. -/
def RNTupleImporter.setIsQuiet (imp : RNTupleImporter) (q : Bool) : RNTupleImporter :=
  { imp with isQuiet := q }

/-- The effective target name: the configured one, defaulting to the source
tree's name. -/
def RNTupleImporter.targetName (imp : RNTupleImporter) : String :=
  imp.ntupleName.getD imp.srcTreeName

/-- Look up a source tree under a name inside an artifact. -/
def findTree : Artifact → String → Option SourceTree
  | [], _ => none
  | (n, .tree t) :: rest, name => if n = name then some t else findTree rest name
  | _ :: rest, name => findTree rest name

/-- Modelled from the spec: `RNTupleImporter::Create` (absent from the
snapshot) — open the source container and the destination artifact (the two
may be the same physical file) and locate the named source tree; the target
name defaults to the source tree's name. -/
def RNTupleImporter.create (src : Artifact) (treeName : String) : Except ImportError RNTupleImporter :=
  match findTree src treeName with
  | some t => .ok ⟨treeName, t, none, false⟩
  | none => .error (.sourceTreeNotFound treeName)

/-- Modelled from the spec: `RNTupleImporter::Import` (absent from the
snapshot), the Import Driver of spec §4.4 — build the schema (aborting on the
first unsupported branch), run the pre-flight check that the target artifact
holds nothing under the requested name yet, create the empty store, loop over
every source row transcoding it, and commit; a failure during the row loop
releases the half-written store, leaving the artifact as it was. -/
def importRun (imp : RNTupleImporter) (a : Artifact) : Artifact × Option ImportError :=
  match buildSchema imp.tree.branches with
  | .error e => (a, some e)
  | .ok schema =>
      let name := imp.targetName
      if containsName a name then (a, some (.targetAlreadyExists name))
      else
        match fillLoop imp.tree.branches name imp.tree.rows (createStore a name schema) with
        | (partial_, some e) => (removeStore partial_ name, some e)
        | (filled, none) => (commitStore filled name, none)

/-- Mirror of `RNTupleReader::Open`: a store is readable only once committed. -/
def openStore : Artifact → String → Option TargetStore
  | [], _ => none
  | (n, .store s) :: rest, name =>
      if n = name then (if s.committed then some s else none) else openStore rest name
  | _ :: rest, name => openStore rest name

/-- Mirror of `RNTupleReader::GetNEntries`. -/
def TargetStore.nEntries (s : TargetStore) : Nat :=
  s.rows.length

/-- Resolve a view path among the sub-fields of a record field named
`fieldName`: sub-fields are addressable as `"<branch>.<subfield>"`. -/
def viewSub (fieldName : String) :
    List (String × PrimKind) → List Nat → String → Option FieldVal
  | [], _, _ => none
  | (subName, _) :: subs, sv :: svs, path =>
      if fieldName ++ "." ++ subName = path then some (.prim sv)
      else viewSub fieldName subs svs path
  | _ :: _, [], _ => none

/-- Resolve a view path inside one target row: either a top-level field name
or a qualified record sub-field name. -/
def viewIn : List RField → List FieldVal → String → Option FieldVal
  | [], _, _ => none
  | _ :: _, [], _ => none
  | f :: fs, v :: vs, path =>
      if f.name = path then some v
      else
        match f.kind, v with
        | .record subs, .recVal svs =>
            match viewSub f.name subs svs path with
            | some x => some x
            | none => viewIn fs vs path
        | _, _ => viewIn fs vs path

/-- Mirror of `RNTupleReader::GetView` / `GetModel()->Get` evaluated at one
row index. -/
def TargetStore.view (s : TargetStore) (path : String) (i : Nat) : Option FieldVal :=
  (s.rows.get? i).bind (fun r => viewIn s.schema r path)

/-- Byte encoding of a text value, for the string round-trip statements. -/
def strBytes (s : String) : List Nat :=
  s.data.map Char.toNat

/-- Transcode every source row in order (the pure characterisation of the
row loop's data flow). -/
def transcodeAll (branches : List Branch) : List (List BranchVal) → Option (List (List FieldVal))
  | [] => some []
  | r :: rs => do
      let fr ← transcodeRow branches r
      let rest ← transcodeAll branches rs
      pure (fr :: rest)

/-- A source tree with a single branch holding one value per row. -/
def oneBranchTree (nm : String) (shape : BranchShape) (vals : List BranchVal) : SourceTree :=
  ⟨[⟨nm, shape⟩], vals.map (fun v => [v])⟩

/-- An importer handle over a source tree with an explicitly configured
target name and quiet progress reporting, as every shipped test sets it up. -/
def mkImporter (treeName : String) (t : SourceTree) (tname : String) : RNTupleImporter :=
  ⟨treeName, t, some tname, true⟩

lemma targetName_mkImporter (treeName : String) (t : SourceTree) (tname : String) :
    (mkImporter treeName t tname).targetName = tname := rfl

lemma containsName_cons (e : String × DirObject) (rest : Artifact) (n : String) :
    containsName (e :: rest) n = (decide (e.fst = n) || containsName rest n) := rfl

lemma containsName_of_mem {a : Artifact} {n : String} {o : DirObject}
    (h : (n, o) ∈ a) : containsName a n = true := by
  have : ∃ x ∈ a, (fun entry => decide (entry.fst = n)) x = true := ⟨(n, o), h, by simp⟩
  exact List.any_eq_true.mpr this

lemma removeStore_of_not_contains {a : Artifact} {n : String}
    (h : containsName a n = false) : removeStore a n = a := by
  induction a with
  | nil => rfl
  | cons e rest ih =>
      rw [containsName_cons] at h
      simp only [Bool.or_eq_false_iff, decide_eq_false_iff_not] at h
      have hr := ih h.2
      unfold removeStore at hr ⊢
      rw [List.filter_cons_of_pos]
      · rw [hr]
      · simp [h.1]

lemma removeStore_append (a b : Artifact) (n : String) :
    removeStore (a ++ b) n = removeStore a n ++ removeStore b n := by
  unfold removeStore
  rw [List.filter_append]

lemma removeStore_appendRow (b : Artifact) (n : String) (row : List FieldVal) :
    removeStore (appendRow b n row) n = removeStore b n := by
  induction b with
  | nil => rfl
  | cons e rest ih =>
      obtain ⟨en, eo⟩ := e
      cases eo with
      | tree t => simp [appendRow, removeStore, List.filter_cons] at ih ⊢; split <;> simp [ih]
      | store s =>
          by_cases hn : en = n
          · simp [appendRow, removeStore, List.filter_cons, hn] at ih ⊢; exact ih
          · simp [appendRow, removeStore, List.filter_cons, hn] at ih ⊢; exact ih

lemma fillLoop_fst_removeStore (branches : List Branch) (nm : String)
    (rows : List (List BranchVal)) (b : Artifact) :
    removeStore (fillLoop branches nm rows b).fst nm = removeStore b nm := by
  induction rows generalizing b with
  | nil => rfl
  | cons r rs ih =>
      unfold fillLoop
      cases transcodeRow branches r with
      | none => rfl
      | some row => simpa [removeStore_appendRow] using ih (appendRow b nm row)

lemma appendRow_of_not_contains {a : Artifact} {n : String}
    (h : containsName a n = false) (row : List FieldVal) : appendRow a n row = a := by
  induction a with
  | nil => rfl
  | cons e rest ih =>
      rw [containsName_cons] at h
      simp only [Bool.or_eq_false_iff, decide_eq_false_iff_not] at h
      obtain ⟨en, eo⟩ := e
      cases eo with
      | tree t => simp [appendRow] at ih ⊢; exact ih h.2
      | store s => simp [appendRow, h.1] at ih ⊢; exact ih h.2

lemma appendRow_append (a b : Artifact) (n : String) (row : List FieldVal) :
    appendRow (a ++ b) n row = appendRow a n row ++ appendRow b n row := by
  unfold appendRow
  rw [List.map_append]

lemma commitStore_of_not_contains {a : Artifact} {n : String}
    (h : containsName a n = false) : commitStore a n = a := by
  induction a with
  | nil => rfl
  | cons e rest ih =>
      rw [containsName_cons] at h
      simp only [Bool.or_eq_false_iff, decide_eq_false_iff_not] at h
      obtain ⟨en, eo⟩ := e
      cases eo with
      | tree t => simp [commitStore] at ih ⊢; exact ih h.2
      | store s => simp [commitStore, h.1] at ih ⊢; exact ih h.2

lemma commitStore_append (a b : Artifact) (n : String) :
    commitStore (a ++ b) n = commitStore a n ++ commitStore b n := by
  unfold commitStore
  rw [List.map_append]

lemma containsName_appendRow (b : Artifact) (n : String) (row : List FieldVal) (m : String) :
    containsName (appendRow b n row) m = containsName b m := by
  induction b with
  | nil => rfl
  | cons e rest ih =>
      obtain ⟨en, eo⟩ := e
      cases eo with
      | tree t => simp [appendRow, containsName_cons] at ih ⊢; rw [ih]
      | store s =>
          by_cases hn : en = n <;>
            simp [appendRow, containsName_cons, hn] at ih ⊢ <;> rw [ih]

lemma containsName_fillLoop (branches : List Branch) (nm : String)
    (rows : List (List BranchVal)) (b : Artifact) (m : String) :
    containsName (fillLoop branches nm rows b).fst m = containsName b m := by
  induction rows generalizing b with
  | nil => rfl
  | cons r rs ih =>
      unfold fillLoop
      cases transcodeRow branches r with
      | none => rfl
      | some row => rw [ih (appendRow b nm row), containsName_appendRow]

lemma containsName_commitStore (b : Artifact) (n : String) (m : String) :
    containsName (commitStore b n) m = containsName b m := by
  induction b with
  | nil => rfl
  | cons e rest ih =>
      obtain ⟨en, eo⟩ := e
      cases eo with
      | tree t => simp [commitStore, containsName_cons] at ih ⊢; rw [ih]
      | store s =>
          by_cases hn : en = n <;>
            simp [commitStore, containsName_cons, hn] at ih ⊢ <;> rw [ih]

lemma containsName_append (a b : Artifact) (m : String) :
    containsName (a ++ b) m = (containsName a m || containsName b m) := by
  unfold containsName
  rw [List.any_append]

lemma fillLoop_filled (branches : List Branch) (nm : String)
    (rows : List (List BranchVal)) (trows : List (List FieldVal))
    (a : Artifact) (schema : List RField) (acc : List (List FieldVal))
    (hfree : containsName a nm = false)
    (ht : transcodeAll branches rows = some trows) :
    fillLoop branches nm rows (a ++ [(nm, .store ⟨schema, acc, false⟩)])
      = (a ++ [(nm, .store ⟨schema, acc ++ trows, false⟩)], none) := by
  induction rows generalizing acc trows with
  | nil =>
      unfold transcodeAll at ht
      cases ht
      simp [fillLoop]
  | cons r rs ih =>
      unfold transcodeAll at ht
      cases hr : transcodeRow branches r with
      | none => rw [hr] at ht; cases ht
      | some row =>
          rw [hr] at ht
          cases hrest : transcodeAll branches rs with
          | none => rw [hrest] at ht; cases ht
          | some rest =>
              rw [hrest] at ht
              have ht' : row :: rest = trows := by
                simpa using ht
              subst ht'
              simp only [fillLoop, hr]
              rw [appendRow_append, appendRow_of_not_contains hfree]
              have hsingle : appendRow [(nm, .store ⟨schema, acc, false⟩)] nm row
                  = [(nm, .store ⟨schema, acc ++ [row], false⟩)] := by
                simp [appendRow]
              rw [hsingle, ih rest (acc ++ [row]) hrest]
              simp

lemma importRun_success (imp : RNTupleImporter) (a : Artifact)
    (schema : List RField) (trows : List (List FieldVal))
    (hschema : buildSchema imp.tree.branches = .ok schema)
    (hfree : containsName a imp.targetName = false)
    (ht : transcodeAll imp.tree.branches imp.tree.rows = some trows) :
    importRun imp a = (a ++ [(imp.targetName, .store ⟨schema, trows, true⟩)], none) := by
  unfold importRun
  rw [hschema]
  simp only [hfree, Bool.false_eq_true, if_false]
  have hcreate : createStore a imp.targetName schema
      = a ++ [(imp.targetName, .store ⟨schema, [], false⟩)] := rfl
  rw [hcreate, fillLoop_filled imp.tree.branches imp.targetName imp.tree.rows trows a schema []
    hfree ht]
  simp only [List.nil_append]
  rw [commitStore_append, commitStore_of_not_contains hfree]
  have hsingle : commitStore [(imp.targetName, .store ⟨schema, trows, false⟩)] imp.targetName
      = [(imp.targetName, .store ⟨schema, trows, true⟩)] := by
    simp [commitStore]
  rw [hsingle]

lemma openStore_append_fresh (a : Artifact) (nm : String) (s : TargetStore)
    (hfree : containsName a nm = false) :
    openStore (a ++ [(nm, .store s)]) nm = if s.committed then some s else none := by
  induction a with
  | nil => simp [openStore]
  | cons e rest ih =>
      rw [containsName_cons] at hfree
      simp only [Bool.or_eq_false_iff, decide_eq_false_iff_not] at hfree
      obtain ⟨en, eo⟩ := e
      cases eo with
      | tree t => simp only [List.cons_append, openStore]; exact ih hfree.2
      | store s' =>
          simp only [List.cons_append, openStore, hfree.1, if_false]
          exact ih hfree.2

lemma string_append_left_cancel {s a b : String} (h : s ++ a = s ++ b) : a = b := by
  have hd : (s ++ a).data = (s ++ b).data := by rw [h]
  rw [String.data_append, String.data_append] at hd
  exact String.ext (List.append_cancel_left hd)

lemma ne_append_dot (nm sn : String) : nm ≠ nm ++ "." ++ sn := by
  intro h
  have := congrArg String.length h
  rw [String.length_append, String.length_append] at this
  have hdot : ("." : String).length = 1 := rfl
  omega

lemma viewSub_get (b : String) (subs : List (String × PrimKind)) (vals : List Nat)
    (hnd : (subs.map Prod.fst).Nodup) (k : Nat) (hk : k < subs.length)
    (hk' : k < vals.length) :
    viewSub b subs vals (b ++ "." ++ (subs.get ⟨k, hk⟩).fst)
      = some (.prim (vals.get ⟨k, hk'⟩)) := by
  induction subs generalizing vals k with
  | nil => exact absurd hk (by simp)
  | cons sub ss ih =>
      obtain ⟨sn, sk⟩ := sub
      cases vals with
      | nil => exact absurd hk' (by simp)
      | cons sv svs =>
          cases k with
          | zero => simp [viewSub]
          | succ k' =>
              have hk2 : k' < ss.length := by simpa using hk
              have hk2' : k' < svs.length := by simpa using hk'
              simp only [List.map_cons, List.nodup_cons] at hnd
              have hmem : (ss.get ⟨k', hk2⟩).fst ∈ ss.map Prod.fst :=
                List.mem_map_of_mem Prod.fst (List.get_mem ss k' hk2)
              have hne : sn ≠ (ss.get ⟨k', hk2⟩).fst := by
                intro hcontra
                exact hnd.1 (hcontra ▸ hmem)
              have hpathne : b ++ "." ++ sn ≠ b ++ "." ++ (ss.get ⟨k', hk2⟩).fst :=
                fun hcontra => hne (string_append_left_cancel hcontra)
              simp only [List.get_cons_succ]
              unfold viewSub
              rw [if_neg hpathne]
              exact ih svs hnd.2 k' hk2 hk2'

lemma viewIn_record (nm : String) (subs : List (String × PrimKind)) (vals : List Nat)
    (hnd : (subs.map Prod.fst).Nodup) (k : Nat) (hk : k < subs.length)
    (hk' : k < vals.length) :
    viewIn [⟨nm, .record subs⟩] [.recVal vals] (nm ++ "." ++ (subs.get ⟨k, hk⟩).fst)
      = some (.prim (vals.get ⟨k, hk'⟩)) := by
  have hv := viewSub_get nm subs vals hnd k hk hk'
  simp only [List.get_eq_getElem] at hv
  unfold viewIn
  rw [if_neg (ne_append_dot nm (subs.get ⟨k, hk⟩).fst)]
  simp [hv]

lemma takeWhile_ne_zero_append (pre rest : List Nat) (h : ∀ x ∈ pre, x ≠ 0) :
    List.takeWhile (fun byte => byte ≠ 0) (pre ++ 0 :: rest) = pre := by
  induction pre with
  | nil => simp [List.takeWhile_cons]
  | cons x xs ih =>
      have hx : x ≠ 0 := h x (by simp)
      have ih' := ih (fun y hy => h y (by simp [hy]))
      rw [List.cons_append, List.takeWhile_cons, if_pos (by simpa using hx), ih']

lemma extractCString_terminated (capacity : Nat) (pre rest : List Nat)
    (h : ∀ x ∈ pre, x ≠ 0) (hcap : pre.length < capacity) :
    extractCString capacity (pre ++ 0 :: rest) = pre := by
  unfold extractCString
  rw [List.take_append_eq_append_take]
  rw [List.take_of_length_le (Nat.le_of_lt hcap)]
  have h1 : capacity - pre.length = (capacity - pre.length - 1) + 1 := by omega
  rw [h1, List.take_succ_cons]
  exact takeWhile_ne_zero_append pre _ h

lemma transcodeAll_nil_rows (branches : List Branch) :
    transcodeAll branches [] = some [] := rfl

lemma transcodeAll_nil_branches (rows : List (List BranchVal))
    (hwf : ∀ r ∈ rows, r = []) :
    transcodeAll [] rows = some (rows.map (fun _ => [])) := by
  induction rows with
  | nil => rfl
  | cons r rs ih =>
      have hr : r = [] := hwf r (by simp)
      subst hr
      unfold transcodeAll
      rw [show transcodeRow [] [] = some [] from rfl]
      rw [ih (fun r' h' => hwf r' (by simp [h']))]
      rfl

lemma importRun_error (imp : RNTupleImporter) (a a' : Artifact) (e : ImportError)
    (h : importRun imp a = (a', some e)) : a' = a := by
  unfold importRun at h
  cases hb : buildSchema imp.tree.branches with
  | error e' =>
      rw [hb] at h
      exact (congrArg Prod.fst h).symm
  | ok schema =>
      rw [hb] at h
      by_cases hc : containsName a imp.targetName = true
      · simp only [hc, if_true] at h
        exact (congrArg Prod.fst h).symm
      · have hc' : containsName a imp.targetName = false := by
          simpa using hc
        simp only [hc', Bool.false_eq_true, if_false] at h
        cases hf : fillLoop imp.tree.branches imp.targetName imp.tree.rows
            (createStore a imp.targetName schema) with
        | mk p oe =>
            rw [hf] at h
            cases oe with
            | none => simp at h
            | some e' =>
                have ha' : a' = removeStore p imp.targetName := (congrArg Prod.fst h).symm
                have hp : removeStore p imp.targetName
                    = removeStore (createStore a imp.targetName schema) imp.targetName := by
                  have := fillLoop_fst_removeStore imp.tree.branches imp.targetName
                    imp.tree.rows (createStore a imp.targetName schema)
                  rw [hf] at this
                  exact this
                rw [ha', hp]
                unfold createStore
                rw [removeStore_append, removeStore_of_not_contains hc']
                simp [removeStore]

lemma view_single (nm : String) (k : FieldKind) (v : FieldVal) (b : Bool)
    (rest : List (List FieldVal)) :
    TargetStore.view ⟨[⟨nm, k⟩], [v] :: rest, b⟩ nm 0 = some v := by
  simp [TargetStore.view, viewIn]

lemma importRun_ok_facts (imp : RNTupleImporter) (a a' : Artifact)
    (h : importRun imp a = (a', none)) :
    containsName a' imp.targetName = true ∧
      ∃ schema, buildSchema imp.tree.branches = .ok schema := by
  unfold importRun at h
  cases hb : buildSchema imp.tree.branches with
  | error e' => rw [hb] at h; simp at h
  | ok schema =>
      rw [hb] at h
      refine ⟨?_, schema, rfl⟩
      by_cases hc : containsName a imp.targetName = true
      · simp [hc] at h
      · have hc' : containsName a imp.targetName = false := by simpa using hc
        simp only [hc', Bool.false_eq_true, if_false] at h
        cases hf : fillLoop imp.tree.branches imp.targetName imp.tree.rows
            (createStore a imp.targetName schema) with
        | mk filled oe =>
            rw [hf] at h
            cases oe with
            | some e' => simp at h
            | none =>
                have ha' : a' = commitStore filled imp.targetName :=
                  (congrArg Prod.fst h).symm
                have hfilled : containsName filled imp.targetName
                    = containsName (createStore a imp.targetName schema) imp.targetName := by
                  have := containsName_fillLoop imp.tree.branches imp.targetName
                    imp.tree.rows (createStore a imp.targetName schema) imp.targetName
                  rw [hf] at this
                  exact this
                rw [ha', containsName_commitStore, hfilled]
                unfold createStore
                rw [containsName_append]
                simp [containsName]

/-- C1: for every source container and target name, once the target artifact
holds a committed store under that name — in particular right after a first
successful import of the same source — a further `Import` against that name
fails with `TargetAlreadyExists` and leaves the artifact untouched, never
appending to or overwriting the existing store. -/
theorem C1_import_into_existing_store_fails :
    (∀ (imp : RNTupleImporter) (a : Artifact) (schema : List RField) (s : TargetStore),
       buildSchema imp.tree.branches = .ok schema →
       (imp.targetName, DirObject.store s) ∈ a →
       importRun imp a = (a, some (.targetAlreadyExists imp.targetName))) ∧
    (∀ (imp : RNTupleImporter) (a a' : Artifact),
       importRun imp a = (a', none) →
       importRun imp a' = (a', some (.targetAlreadyExists imp.targetName))) := by
  constructor
  · intro imp a schema s hschema hmem
    unfold importRun
    rw [hschema]
    simp [containsName_of_mem hmem]
  · intro imp a a' h
    obtain ⟨hc, schema, hschema⟩ := importRun_ok_facts imp a a' h
    unfold importRun
    rw [hschema]
    simp [hc]

/-- Witness for C1: the `Empty` test scenario — after the empty tree is
imported into `"ntuple"`, a second `Import` throws `TargetAlreadyExists`;
likewise if the artifact already holds a committed store under the name. -/
theorem C1_import_into_existing_store_fails_witness :
    importRun (mkImporter "tree" ⟨[], []⟩ "ntuple")
        [("ntuple", DirObject.store ⟨[], [], true⟩)]
      = ([("ntuple", DirObject.store ⟨[], [], true⟩)],
         some (.targetAlreadyExists "ntuple")) ∧
    importRun (mkImporter "tree" ⟨[], []⟩ "ntuple")
        [("ntuple", DirObject.store ⟨[], [], true⟩)]
      = ([("ntuple", DirObject.store ⟨[], [], true⟩)],
         some (.targetAlreadyExists "ntuple")) := by
  constructor
  · exact C1_import_into_existing_store_fails.1
      (mkImporter "tree" ⟨[], []⟩ "ntuple")
      [("ntuple", DirObject.store ⟨[], [], true⟩)] [] ⟨[], [], true⟩
      (by decide) (by decide)
  · exact C1_import_into_existing_store_fails.2
      (mkImporter "tree" ⟨[], []⟩ "ntuple") [] [("ntuple", DirObject.store ⟨[], [], true⟩)]
      (by decide)

/-- C2: for every supported primitive kind (boolean; signed/unsigned
8/16/32/64-bit integers; float32; float64), importing a single-row source
with one branch of that kind yields a committed store whose single field has
exactly the same primitive kind (hence the same width and signedness — no
implicit narrowing or widening) and whose read-back value is the written bit
pattern, verbatim (bit-exact for floats). -/
theorem C2_primitive_roundtrip (k : PrimKind) (bits : Nat) (nm treeName tname : String)
    (a : Artifact) (hfree : containsName a tname = false) :
    importRun (mkImporter treeName (oneBranchTree nm (.scalar k) [.prim bits]) tname) a
        = (a ++ [(tname, .store ⟨[⟨nm, .prim k⟩], [[.prim bits]], true⟩)], none) ∧
    openStore (a ++ [(tname, .store ⟨[⟨nm, .prim k⟩], [[.prim bits]], true⟩)]) tname
        = some (⟨[⟨nm, .prim k⟩], [[.prim bits]], true⟩ : TargetStore) ∧
    TargetStore.view ⟨[⟨nm, .prim k⟩], [[.prim bits]], true⟩ nm 0 = some (.prim bits) ∧
    TargetStore.nEntries ⟨[⟨nm, .prim k⟩], [[.prim bits]], true⟩ = 1 := by
  refine ⟨?_, ?_, view_single nm (.prim k) (.prim bits) true [], rfl⟩
  · exact importRun_success
      (mkImporter treeName (oneBranchTree nm (.scalar k) [.prim bits]) tname)
      a [⟨nm, .prim k⟩] [[.prim bits]] rfl hfree rfl
  · rw [openStore_append_fresh a tname _ hfree]
    rfl

/-- Witness for C2: the `Simple` test's `myInt32` branch written as `-32`
(bit pattern `2^32 - 32`) reads back verbatim from the committed store. -/
theorem C2_primitive_roundtrip_witness :
    importRun (mkImporter "tree"
        (oneBranchTree "myInt32" (.scalar .pI32) [.prim 4294967264]) "ntuple") []
      = ([] ++ [("ntuple", DirObject.store
          ⟨[⟨"myInt32", .prim .pI32⟩], [[.prim 4294967264]], true⟩)], none) ∧
    openStore ([] ++ [("ntuple", DirObject.store
        ⟨[⟨"myInt32", .prim .pI32⟩], [[.prim 4294967264]], true⟩)]) "ntuple"
      = some (⟨[⟨"myInt32", .prim .pI32⟩], [[.prim 4294967264]], true⟩ : TargetStore) ∧
    TargetStore.view ⟨[⟨"myInt32", .prim .pI32⟩], [[.prim 4294967264]], true⟩ "myInt32" 0
      = some (.prim 4294967264) ∧
    TargetStore.nEntries ⟨[⟨"myInt32", .prim .pI32⟩], [[.prim 4294967264]], true⟩ = 1 :=
  C2_primitive_roundtrip .pI32 4294967264 "myInt32" "tree" "ntuple" [] rfl

/-- The source tree of `TEST(RNTupleImporter, CString)`: one null-terminated
text branch `myString` (with its underlying buffer capacity) filled
successively with `"R"`, `""`, and `"ROOT RNTuple"` across three rows. -/
def cstringTree : SourceTree :=
  ⟨[⟨"myString", .cstring 16⟩],
   [[.bytes (strBytes "R" ++ [0])],
    [.bytes (strBytes "" ++ [0])],
    [.bytes (strBytes "ROOT RNTuple" ++ [0])]]⟩

/-- The store the `CString` test reads back. -/
def cstringStore : TargetStore :=
  ⟨[⟨"myString", .str 16⟩],
   [[.str (strBytes "R")], [.str (strBytes "")], [.str (strBytes "ROOT RNTuple")]],
   true⟩

/-- C3: importing the three-row null-terminated text source of the `CString`
test produces a committed store whose three rows read back exactly `"R"`,
`""`, and `"ROOT RNTuple"` in that order (the empty string included); and in
general the transcoded value of a text branch is the bytes strictly before
the terminator, found by a scan bounded by the branch's recorded capacity. -/
theorem C3_cstring_rows (capacity : Nat) (pre rest : List Nat)
    (hpre : ∀ x ∈ pre, x ≠ 0) (hcap : pre.length < capacity) :
    importRun (mkImporter "tree" cstringTree "ntuple") []
        = ([("ntuple", DirObject.store cstringStore)], none) ∧
    openStore [("ntuple", DirObject.store cstringStore)] "ntuple" = some cstringStore ∧
    cstringStore.nEntries = 3 ∧
    cstringStore.view "myString" 0 = some (.str (strBytes "R")) ∧
    cstringStore.view "myString" 1 = some (.str (strBytes "")) ∧
    cstringStore.view "myString" 2 = some (.str (strBytes "ROOT RNTuple")) ∧
    extractCString capacity (pre ++ 0 :: rest) = pre := by
  refine ⟨by decide, by decide, by decide, by decide, by decide, by decide, ?_⟩
  exact extractCString_terminated capacity pre rest hpre hcap

/-- Witness for C3: the bounded scan at a concrete buffer, through the claim
theorem itself. -/
theorem C3_cstring_rows_witness :
    importRun (mkImporter "tree" cstringTree "ntuple") []
        = ([("ntuple", DirObject.store cstringStore)], none) ∧
    openStore [("ntuple", DirObject.store cstringStore)] "ntuple" = some cstringStore ∧
    cstringStore.nEntries = 3 ∧
    cstringStore.view "myString" 0 = some (.str (strBytes "R")) ∧
    cstringStore.view "myString" 1 = some (.str (strBytes "")) ∧
    cstringStore.view "myString" 2 = some (.str (strBytes "ROOT RNTuple")) ∧
    extractCString 16 ([82] ++ 0 :: [7, 7]) = [82] :=
  C3_cstring_rows 16 [82] [7, 7] (by decide) (by decide)

/-- C4: a leaf-list branch becomes exactly one record-kind field; its
sub-fields are addressable as `"<branch>.<subfield>"` and each reads back the
corresponding written sub-value independently. -/
theorem C4_leaflist_record (nm treeName tname : String) (subs : List (String × PrimKind))
    (vals : List Nat) (a : Artifact)
    (hfree : containsName a tname = false)
    (hlen : vals.length = subs.length)
    (hnd : (subs.map Prod.fst).Nodup) :
    importRun (mkImporter treeName (oneBranchTree nm (.leafList subs) [.recVal vals]) tname) a
        = (a ++ [(tname, .store ⟨[⟨nm, .record subs⟩], [[.recVal vals]], true⟩)], none) ∧
    openStore (a ++ [(tname, .store ⟨[⟨nm, .record subs⟩], [[.recVal vals]], true⟩)]) tname
        = some (⟨[⟨nm, .record subs⟩], [[.recVal vals]], true⟩ : TargetStore) ∧
    TargetStore.nEntries ⟨[⟨nm, .record subs⟩], [[.recVal vals]], true⟩ = 1 ∧
    ∀ (k : Nat) (hk : k < subs.length),
      TargetStore.view ⟨[⟨nm, .record subs⟩], [[.recVal vals]], true⟩
          (nm ++ "." ++ (subs.get ⟨k, hk⟩).fst) 0
        = some (.prim (vals.get ⟨k, by omega⟩)) := by
  have ht : transcodeAll [⟨nm, .leafList subs⟩] [[.recVal vals]] = some [[.recVal vals]] := by
    simp [transcodeAll, transcodeRow, transcodeVal, hlen]
  refine ⟨?_, ?_, rfl, ?_⟩
  · exact importRun_success
      (mkImporter treeName (oneBranchTree nm (.leafList subs) [.recVal vals]) tname)
      a [⟨nm, .record subs⟩] [[.recVal vals]] rfl hfree ht
  · rw [openStore_append_fresh a tname _ hfree]
    rfl
  · intro k hk
    have hv := viewIn_record nm subs vals hnd k hk (by omega)
    simpa [TargetStore.view] using hv

/-- Witness for C4: the `Leaflist` test — branch `branch` with integer
sub-fields `a = 1`, `b = 2` reads back through the qualified names
`branch.a` and `branch.b`. -/
theorem C4_leaflist_record_witness :
    TargetStore.view ⟨[⟨"branch", .record [("a", .pI32), ("b", .pI32)]⟩],
        [[.recVal [1, 2]]], true⟩ "branch.a" 0 = some (.prim 1) ∧
    TargetStore.view ⟨[⟨"branch", .record [("a", .pI32), ("b", .pI32)]⟩],
        [[.recVal [1, 2]]], true⟩ "branch.b" 0 = some (.prim 2) := by
  have h := C4_leaflist_record "branch" "tree" "ntuple" [("a", .pI32), ("b", .pI32)] [1, 2] []
    rfl rfl (by decide)
  exact ⟨h.2.2.2 0 (by decide), h.2.2.2 1 (by decide)⟩

/-- C5 (amended): a fixed-size array branch of scalar kind T and static
length N ≥ 2 imports as a fixed-array field of element kind T and length N
with the elements in original index order; a static length-1 array branch
instead imports as a plain scalar field of kind T holding its single element
(so `{42}` reads back as the scalar `42`, as the `FixedSizeArray` test reads
it). -/
theorem C5_fixed_size_array (k : PrimKind) (n : Nat) (nm treeName tname : String)
    (elems : List Nat) (a : Artifact)
    (hfree : containsName a tname = false) (hn : 1 ≤ n) (hlen : elems.length = n) :
    importRun (mkImporter treeName (oneBranchTree nm (.fixedArray k n) [.arr elems]) tname) a
        = (a ++ [(tname, .store
            ⟨[⟨nm, if 2 ≤ n then .fixedArr k n else .prim k⟩],
             [[if 2 ≤ n then FieldVal.arr elems else FieldVal.prim (elems.headD 0)]],
             true⟩)], none) ∧
    openStore (a ++ [(tname, .store
          ⟨[⟨nm, if 2 ≤ n then .fixedArr k n else .prim k⟩],
           [[if 2 ≤ n then FieldVal.arr elems else FieldVal.prim (elems.headD 0)]],
           true⟩)]) tname
        = some (⟨[⟨nm, if 2 ≤ n then .fixedArr k n else .prim k⟩],
            [[if 2 ≤ n then FieldVal.arr elems else FieldVal.prim (elems.headD 0)]],
            true⟩ : TargetStore) ∧
    TargetStore.view ⟨[⟨nm, if 2 ≤ n then .fixedArr k n else .prim k⟩],
          [[if 2 ≤ n then FieldVal.arr elems else FieldVal.prim (elems.headD 0)]], true⟩ nm 0
        = some (if 2 ≤ n then FieldVal.arr elems else FieldVal.prim (elems.headD 0)) := by
  have hn0 : ¬ n = 0 := by omega
  have hschema : buildSchema [⟨nm, .fixedArray k n⟩]
      = .ok [⟨nm, if 2 ≤ n then .fixedArr k n else .prim k⟩] := by
    by_cases h2 : 2 ≤ n <;> simp [buildSchema, mapBranch, hn0, h2] <;> rfl
  have ht : transcodeAll [⟨nm, .fixedArray k n⟩] [[.arr elems]]
      = some [[if 2 ≤ n then FieldVal.arr elems else FieldVal.prim (elems.headD 0)]] := by
    by_cases h2 : 2 ≤ n <;> simp [transcodeAll, transcodeRow, transcodeVal, hlen, h2]
  refine ⟨?_, ?_, view_single nm _ _ true []⟩
  · exact importRun_success
      (mkImporter treeName (oneBranchTree nm (.fixedArray k n) [.arr elems]) tname)
      a _ _ hschema hfree ht
  · rw [openStore_append_fresh a tname _ hfree]
    rfl

/-- Witness for C5: the `FixedSizeArray` test's branch `b[2]/I` filled with
`{1,2}` reads back as a length-2 fixed-array field with elements in order. -/
theorem C5_fixed_size_array_witness :
    TargetStore.view ⟨[⟨"b", if 2 ≤ 2 then .fixedArr .pI32 2 else .prim .pI32⟩],
          [[if 2 ≤ 2 then FieldVal.arr [1, 2] else FieldVal.prim ([1, 2].headD 0)]], true⟩ "b" 0
        = some (if 2 ≤ 2 then FieldVal.arr [1, 2] else FieldVal.prim ([1, 2].headD 0)) :=
  (C5_fixed_size_array .pI32 2 "b" "tree" "ntuple" [1, 2] [] rfl (by decide) (by decide)).2.2

/-- Counterexample for C5 as stated: the length-1 integer array branch
`a[1]/I` filled with `{42}` does not import as a fixed-array field of length
1 — it imports as a plain scalar `std::int32_t` field, exactly as
`TEST(RNTupleImporter, FixedSizeArray)` reads it back with
`GetView<std::int32_t>("a")`. -/
theorem C5_fixed_size_array_counterexample :
    importRun (mkImporter "tree" (oneBranchTree "a" (.fixedArray .pI32 1) [.arr [42]]) "ntuple") []
        = ([("ntuple", DirObject.store ⟨[⟨"a", .prim .pI32⟩], [[.prim 42]], true⟩)], none) ∧
    openStore [("ntuple", DirObject.store ⟨[⟨"a", .prim .pI32⟩], [[.prim 42]], true⟩)] "ntuple"
        = some (⟨[⟨"a", .prim .pI32⟩], [[.prim 42]], true⟩ : TargetStore) ∧
    (⟨[⟨"a", .prim .pI32⟩], [[.prim 42]], true⟩ : TargetStore).schema
        ≠ [⟨"a", .fixedArr .pI32 1⟩] := by
  exact ⟨by decide, by decide, by decide⟩

/-- C6: a character buffer branch declared with an explicit array length N
(N ≥ 1) imports as a fixed-array of single characters of length N — not as a
variable-length string — and its N elements read back in original index
order. -/
theorem C6_char_buffer_fixed_array (n : Nat) (nm treeName tname : String)
    (bytes : List Nat) (a : Artifact)
    (hfree : containsName a tname = false) (hn : 1 ≤ n) (hlen : bytes.length = n) :
    importRun (mkImporter treeName (oneBranchTree nm (.charArray n) [.arr bytes]) tname) a
        = (a ++ [(tname, .store ⟨[⟨nm, .fixedArr .pI8 n⟩], [[.arr bytes]], true⟩)], none) ∧
    openStore (a ++ [(tname, .store ⟨[⟨nm, .fixedArr .pI8 n⟩], [[.arr bytes]], true⟩)]) tname
        = some (⟨[⟨nm, .fixedArr .pI8 n⟩], [[.arr bytes]], true⟩ : TargetStore) ∧
    TargetStore.view ⟨[⟨nm, .fixedArr .pI8 n⟩], [[.arr bytes]], true⟩ nm 0
        = some (.arr bytes) ∧
    (∀ capacity, (FieldKind.fixedArr .pI8 n) ≠ .str capacity) := by
  have hn0 : ¬ n = 0 := by omega
  have hschema : buildSchema [⟨nm, .charArray n⟩] = .ok [⟨nm, .fixedArr .pI8 n⟩] := by
    simp [buildSchema, mapBranch, hn0]
    rfl
  have ht : transcodeAll [⟨nm, .charArray n⟩] [[.arr bytes]] = some [[.arr bytes]] := by
    simp [transcodeAll, transcodeRow, transcodeVal, hlen]
  refine ⟨?_, ?_, view_single nm _ _ true [], fun capacity h => by cases h⟩
  · exact importRun_success
      (mkImporter treeName (oneBranchTree nm (.charArray n) [.arr bytes]) tname)
      a _ _ hschema hfree ht
  · rw [openStore_append_fresh a tname _ hfree]
    rfl

/-- Witness for C6: the `FixedSizeArray` test's branch `c[4]/C` filled with
`{'R','O','O','T'}` reads back as a length-4 fixed character array in index
order. -/
theorem C6_char_buffer_fixed_array_witness :
    TargetStore.view ⟨[⟨"c", .fixedArr .pI8 4⟩], [[.arr [82, 79, 79, 84]]], true⟩ "c" 0
        = some (.arr [82, 79, 79, 84]) :=
  (C6_char_buffer_fixed_array 4 "c" "tree" "ntuple" [82, 79, 79, 84] []
    rfl (by decide) (by decide)).2.2.1

/-- C7 (amended): importing a source container with zero branches or zero
rows succeeds (it is not an error) and commits a readable store; the store's
schema is the one built from the source branches — zero-field exactly when
there are zero branches — and its row count equals the source row count —
zero exactly when the source has zero rows. -/
theorem C7_empty_source_succeeds (imp : RNTupleImporter) (a : Artifact) (schema : List RField)
    (hempty : imp.tree.branches = [] ∨ imp.tree.rows = [])
    (hwf : ∀ r ∈ imp.tree.rows, r.length = imp.tree.branches.length)
    (hschema : buildSchema imp.tree.branches = .ok schema)
    (hfree : containsName a imp.targetName = false) :
    ∃ s : TargetStore,
      importRun imp a = (a ++ [(imp.targetName, .store s)], none) ∧
      openStore (a ++ [(imp.targetName, .store s)]) imp.targetName = some s ∧
      s.committed = true ∧
      s.schema = schema ∧
      s.nEntries = imp.tree.rows.length ∧
      (imp.tree.branches = [] → s.schema = []) ∧
      (imp.tree.rows = [] → s.nEntries = 0) := by
  cases hempty with
  | inr hrows =>
      refine ⟨⟨schema, [], true⟩, ?_, ?_, rfl, rfl, ?_, ?_, fun _ => rfl⟩
      · exact importRun_success imp a schema [] hschema hfree (by rw [hrows]; rfl)
      · rw [openStore_append_fresh a _ _ hfree]
        rfl
      · simp [TargetStore.nEntries, hrows]
      · intro hb
        rw [hb] at hschema
        have : ([] : List RField) = schema := by simpa [buildSchema] using hschema
        exact this.symm
  | inl hbr =>
      have hwf' : ∀ r ∈ imp.tree.rows, r = [] := by
        intro r hr
        have hlen := hwf r hr
        rw [hbr] at hlen
        exact List.length_eq_zero.mp (by simpa using hlen)
      have ht : transcodeAll imp.tree.branches imp.tree.rows
          = some (imp.tree.rows.map (fun x => [])) := by
        rw [hbr]
        exact transcodeAll_nil_branches imp.tree.rows hwf'
      refine ⟨⟨schema, imp.tree.rows.map (fun x => []), true⟩, ?_, ?_, rfl, rfl, ?_, ?_, ?_⟩
      · exact importRun_success imp a schema _ hschema hfree ht
      · rw [openStore_append_fresh a _ _ hfree]
        rfl
      · simp [TargetStore.nEntries]
      · intro hb
        rw [hb] at hschema
        have : ([] : List RField) = schema := by simpa [buildSchema] using hschema
        exact this.symm
      · intro hrows
        simp [TargetStore.nEntries, hrows]

/-- Witness for C7: the `Empty` test — the tree with zero branches and zero
rows, sitting in the same file, imports successfully into `"ntuple"` with a
zero-field schema and zero entries. -/
theorem C7_empty_source_succeeds_witness :
    ∃ s : TargetStore,
      importRun (mkImporter "tree" ⟨[], []⟩ "ntuple") [("tree", DirObject.tree ⟨[], []⟩)]
          = ([("tree", DirObject.tree ⟨[], []⟩)]
             ++ [("ntuple", DirObject.store s)], none) ∧
      openStore ([("tree", DirObject.tree ⟨[], []⟩)]
          ++ [("ntuple", DirObject.store s)]) "ntuple" = some s ∧
      s.committed = true ∧
      s.schema = [] ∧
      s.nEntries = List.length ([] : List (List BranchVal)) ∧
      (([] : List Branch) = [] → s.schema = []) ∧
      (([] : List (List BranchVal)) = [] → s.nEntries = 0) :=
  C7_empty_source_succeeds (mkImporter "tree" ⟨[], []⟩ "ntuple")
    [("tree", DirObject.tree ⟨[], []⟩)] [] (Or.inl rfl) (by intro r hr; cases hr) rfl rfl

/-- Counterexample for C7 as stated: a zero-row source with one boolean
branch imports successfully, but the committed store's schema is the
one-field schema built from the branches — not the empty schema the claim
asserts for every "zero branches or zero rows" source. -/
theorem C7_empty_source_succeeds_counterexample :
    importRun (mkImporter "tree" (oneBranchTree "myBool" (.scalar .pBool) []) "ntuple") []
        = ([("ntuple", DirObject.store ⟨[⟨"myBool", .prim .pBool⟩], [], true⟩)], none) ∧
    (⟨[⟨"myBool", .prim .pBool⟩], [], true⟩ : TargetStore).schema ≠ ([] : List RField) := by
  exact ⟨by decide, by decide⟩

/-- C8: every failed `Import` call leaves the destination artifact exactly as
it was before the call (no partially written store reachable under the
requested name), and a later import into the same artifact under a
non-conflicting name still succeeds and commits a readable store. -/
theorem C8_failed_import_leaves_artifact_intact :
    (∀ (imp : RNTupleImporter) (a a' : Artifact) (e : ImportError),
       importRun imp a = (a', some e) → a' = a) ∧
    (∀ (imp imp2 : RNTupleImporter) (a a' : Artifact) (e : ImportError)
       (schema : List RField) (trows : List (List FieldVal)),
       importRun imp a = (a', some e) →
       buildSchema imp2.tree.branches = .ok schema →
       containsName a imp2.targetName = false →
       transcodeAll imp2.tree.branches imp2.tree.rows = some trows →
       importRun imp2 a' = (a' ++ [(imp2.targetName, .store ⟨schema, trows, true⟩)], none) ∧
       openStore (a' ++ [(imp2.targetName, .store ⟨schema, trows, true⟩)]) imp2.targetName
         = some (⟨schema, trows, true⟩ : TargetStore)) := by
  constructor
  · exact fun imp a a' e h => importRun_error imp a a' e h
  · intro imp imp2 a a' e schema trows h hschema hfree ht
    rw [importRun_error imp a a' e h]
    refine ⟨importRun_success imp2 a schema trows hschema hfree ht, ?_⟩
    rw [openStore_append_fresh a _ _ hfree]
    rfl

/-- Witness for C8: the `Empty` test — the first `Import` (default name
`tree`, already taken by the source tree) fails and leaves the file as it
was, after which the import under the fresh name `ntuple` succeeds and is
readable. -/
theorem C8_failed_import_leaves_artifact_intact_witness :
    importRun (mkImporter "tree" ⟨[], []⟩ "ntuple")
        [("tree", DirObject.tree ⟨[], []⟩)]
      = ([("tree", DirObject.tree ⟨[], []⟩)]
          ++ [("ntuple", DirObject.store ⟨[], [], true⟩)], none) ∧
    openStore ([("tree", DirObject.tree ⟨[], []⟩)]
        ++ [("ntuple", DirObject.store ⟨[], [], true⟩)]) "ntuple"
      = some (⟨[], [], true⟩ : TargetStore) :=
  C8_failed_import_leaves_artifact_intact.2
    (⟨"tree", ⟨[], []⟩, none, true⟩ : RNTupleImporter)
    (mkImporter "tree" ⟨[], []⟩ "ntuple")
    [("tree", DirObject.tree ⟨[], []⟩)] [("tree", DirObject.tree ⟨[], []⟩)]
    (.targetAlreadyExists "tree") [] []
    (by decide) rfl (by decide) rfl

/-- C9: with no target name configured the name defaults to the source
tree's own name, and the pre-flight check fails the import with
`TargetAlreadyExists` whenever the artifact already holds any object under
that name — here the object is the source tree itself, not a committed
store, exactly the situation of the `Empty` test where source and target are
the same file. -/
theorem C9_default_name_preflight (imp : RNTupleImporter) (a : Artifact) (t : SourceTree)
    (schema : List RField)
    (hdefault : imp.ntupleName = none)
    (hschema : buildSchema imp.tree.branches = .ok schema)
    (htree : (imp.srcTreeName, DirObject.tree t) ∈ a) :
    imp.targetName = imp.srcTreeName ∧
    importRun imp a = (a, some (.targetAlreadyExists imp.srcTreeName)) := by
  have hname : imp.targetName = imp.srcTreeName := by
    simp [RNTupleImporter.targetName, hdefault]
  refine ⟨hname, ?_⟩
  unfold importRun
  rw [hschema]
  have hc : containsName a imp.srcTreeName = true := containsName_of_mem htree
  simp [hname, hc]

/-- Witness for C9: the `Empty` test's first `Import` call, where the only
object under the default name `tree` is the source tree itself. -/
theorem C9_default_name_preflight_witness :
    (⟨"tree", ⟨[], []⟩, none, true⟩ : RNTupleImporter).targetName = "tree" ∧
    importRun (⟨"tree", ⟨[], []⟩, none, true⟩ : RNTupleImporter)
        [("tree", DirObject.tree ⟨[], []⟩)]
      = ([("tree", DirObject.tree ⟨[], []⟩)], some (.targetAlreadyExists "tree")) :=
  C9_default_name_preflight (⟨"tree", ⟨[], []⟩, none, true⟩ : RNTupleImporter)
    [("tree", DirObject.tree ⟨[], []⟩)] ⟨[], []⟩ [] rfl rfl (by simp)

/-- C10: one physical file can be both the source container and the
destination artifact of the same import: `Create` with source path equal to
target path succeeds in locating the tree, and a subsequent `Import` under a
name not already present in the file commits a store readable from that same
file. -/
theorem C10_same_file_source_and_destination (f : Artifact) (treeName tname : String)
    (t : SourceTree) (schema : List RField) (trows : List (List FieldVal))
    (hfind : findTree f treeName = some t)
    (hfree : containsName f tname = false)
    (hschema : buildSchema t.branches = .ok schema)
    (ht : transcodeAll t.branches t.rows = some trows) :
    RNTupleImporter.create f treeName = .ok ⟨treeName, t, none, false⟩ ∧
    importRun ((⟨treeName, t, none, false⟩ : RNTupleImporter).setNTupleName tname) f
        = (f ++ [(tname, .store ⟨schema, trows, true⟩)], none) ∧
    openStore (f ++ [(tname, .store ⟨schema, trows, true⟩)]) tname
        = some (⟨schema, trows, true⟩ : TargetStore) := by
  refine ⟨?_, ?_, ?_⟩
  · unfold RNTupleImporter.create
    rw [hfind]
  · exact importRun_success ((⟨treeName, t, none, false⟩ : RNTupleImporter).setNTupleName tname)
      f schema trows hschema hfree ht
  · rw [openStore_append_fresh f _ _ hfree]
    rfl

/-- Witness for C10: the `Simple`-style scenario — a one-branch tree stored
in the file is imported back into the very same file under the fresh name
`ntuple`. -/
theorem C10_same_file_source_and_destination_witness :
    RNTupleImporter.create [("tree", DirObject.tree (oneBranchTree "myBool" (.scalar .pBool)
        [.prim 1]))] "tree"
      = .ok ⟨"tree", oneBranchTree "myBool" (.scalar .pBool) [.prim 1], none, false⟩ ∧
    importRun ((⟨"tree", oneBranchTree "myBool" (.scalar .pBool) [.prim 1], none, false⟩ :
        RNTupleImporter).setNTupleName "ntuple")
        [("tree", DirObject.tree (oneBranchTree "myBool" (.scalar .pBool) [.prim 1]))]
      = ([("tree", DirObject.tree (oneBranchTree "myBool" (.scalar .pBool) [.prim 1]))]
          ++ [("ntuple", DirObject.store ⟨[⟨"myBool", .prim .pBool⟩], [[.prim 1]], true⟩)], none) ∧
    openStore ([("tree", DirObject.tree (oneBranchTree "myBool" (.scalar .pBool) [.prim 1]))]
        ++ [("ntuple", DirObject.store ⟨[⟨"myBool", .prim .pBool⟩], [[.prim 1]], true⟩)]) "ntuple"
      = some (⟨[⟨"myBool", .prim .pBool⟩], [[.prim 1]], true⟩ : TargetStore) :=
  C10_same_file_source_and_destination
    [("tree", DirObject.tree (oneBranchTree "myBool" (.scalar .pBool) [.prim 1]))]
    "tree" "ntuple" (oneBranchTree "myBool" (.scalar .pBool) [.prim 1])
    [⟨"myBool", .prim .pBool⟩] [[.prim 1]]
    (by decide) (by decide) rfl rfl
